import Mathlib

/-!
Shallow embedding of `heredity.py`, the exact-inference engine for the
gene/trait Bayesian network, together with theorems settling the spec claims.

Probabilities are embedded as rationals (`ℚ`): every constant in the Python
probability tables is an exact decimal, so rational arithmetic reproduces the
intended real-number semantics exactly.  Python `dict`/`set` iteration feeds
commutative sums and products, so the per-person dictionaries are embedded as
functions and the accumulation loops as `Finset` sums over the same index
sets; `joint_probability`, whose loop the spec calls out as visiting every
person exactly once, is kept as the literal left fold over the key list.
-/

namespace Heredity

/-- One row of the `people` dictionary built by `load_data`: optional mother
and father names (`None` meaning absent) and the optional observed trait. -/
structure Person where
  mother : Option String
  father : Option String
  trait : Option Bool
deriving DecidableEq

/-- The `people` dictionary: its key list (Python dict keys are unique, hence
`nodup`) together with the record stored under each key.  `person` is a total
function; the program only ever applies it to keys in `names`. -/
structure Pedigree where
  names : List String
  person : String → Person
  nodup : names.Nodup

/-- PROBS["gene"], the founder prior: 2 ↦ 0.01, 1 ↦ 0.03, 0 ↦ 0.96. -/
def PROBS_gene (g : Nat) : ℚ :=
  if g = 2 then 1/100 else if g = 1 then 3/100 else 96/100

/-- PROBS["trait"], the trait table: 2 ↦ {T: 0.65, F: 0.35},
1 ↦ {T: 0.56, F: 0.44}, 0 ↦ {T: 0.01, F: 0.99}. -/
def PROBS_trait (g : Nat) (t : Bool) : ℚ :=
  if g = 2 then (if t then 65/100 else 35/100)
  else if g = 1 then (if t then 56/100 else 44/100)
  else (if t then 1/100 else 99/100)

/-- PROBS["mutation"] = 0.01. -/
def mutation : ℚ := 1/100

/-- The `passing_prob` table inside `joint_probability`:
{0: mutation, 1: 0.5, 2: 1 - mutation}.  The program only looks it up at
gene counts 0, 1, 2. -/
def passing_prob (g : Nat) : ℚ :=
  if g = 0 then mutation else if g = 1 then 1/2 else 1 - mutation

/-- The gene count the enumeration assigns to a name:
`2 if person in two_genes else 1 if person in one_gene else 0`. -/
def geneCount (one_gene two_genes : Finset String) (p : String) : Nat :=
  if p ∈ two_genes then 2 else if p ∈ one_gene then 1 else 0

/-- Gene count of an optional parent reference: Python evaluates
`father in two_genes` even when `father` is `None`, and `None` is a member of
neither set, so an absent reference reads as count 0. -/
def parentGeneCount (one_gene two_genes : Finset String) : Option String → Nat
  | none => 0
  | some m => geneCount one_gene two_genes m

/-- The three-way branch on `genes` inside `joint_probability` for a person
with a recorded mother: the child-gene probability from the two parents'
passing probabilities. -/
def childGeneProb (genes mg fg : Nat) : ℚ :=
  if genes = 2 then passing_prob mg * passing_prob fg
  else if genes = 1 then
    passing_prob mg * (1 - passing_prob fg) +
      (1 - passing_prob mg) * passing_prob fg
  else (1 - passing_prob mg) * (1 - passing_prob fg)

/-- The factor `joint_probability` multiplies in for one person: the gene
probability (founder prior when `mother is None`, else the inheritance
probability from both parents' assigned counts) times the trait probability. -/
def personFactor (ped : Pedigree) (one_gene two_genes have_trait : Finset String)
    (p : String) : ℚ :=
  (match (ped.person p).mother with
   | none => PROBS_gene (geneCount one_gene two_genes p)
   | some mother =>
      childGeneProb (geneCount one_gene two_genes p)
        (geneCount one_gene two_genes mother)
        (parentGeneCount one_gene two_genes (ped.person p).father))
  * PROBS_trait (geneCount one_gene two_genes p) (decide (p ∈ have_trait))

/-- `joint_probability`: `probability = 1`, then for each person in the
dictionary multiply in that person's factor. -/
def jointProbability (ped : Pedigree)
    (one_gene two_genes have_trait : Finset String) : ℚ :=
  ped.names.foldl
    (fun probability p =>
      probability * personFactor ped one_gene two_genes have_trait p) 1

/-- The set `names = set(people)` that `main` enumerates subsets of. -/
def nameSet (ped : Pedigree) : Finset String := ped.names.toFinset

/-- The `fails_evidence` check in `main`: some person has an observed trait
different from their membership in the `have_trait` candidate. -/
def failsEvidence (ped : Pedigree) (have_trait : Finset String) : Bool :=
  ped.names.any fun p =>
    match (ped.person p).trait with
    | none => false
    | some b => b != decide (p ∈ have_trait)

/-- The gene mass one surviving trait candidate adds to
`probabilities[p]["gene"][g]`: the inner two loops of `main` over
`one_gene in powerset(names)` and `two_genes in powerset(names - one_gene)`,
with `update` adding `p`'s joint probability to the bucket of `p`'s assigned
count.  Python's `powerset` lists each subset exactly once, so the loop is the
sum over `Finset.powerset`. -/
def candidateGeneMass (ped : Pedigree) (have_trait : Finset String)
    (p : String) (g : Nat) : ℚ :=
  ∑ one_gene ∈ (nameSet ped).powerset,
    ∑ two_genes ∈ (nameSet ped \ one_gene).powerset,
      if geneCount one_gene two_genes p = g
      then jointProbability ped one_gene two_genes have_trait else 0

/-- The trait mass one surviving trait candidate adds to
`probabilities[p]["trait"][b]`. -/
def candidateTraitMass (ped : Pedigree) (have_trait : Finset String)
    (p : String) (b : Bool) : ℚ :=
  ∑ one_gene ∈ (nameSet ped).powerset,
    ∑ two_genes ∈ (nameSet ped \ one_gene).powerset,
      if decide (p ∈ have_trait) = b
      then jointProbability ped one_gene two_genes have_trait else 0

/-- Gene masses summed over a given collection of trait candidates, skipping
(as `continue` does) the ones failing evidence. -/
def geneMassOver (ped : Pedigree) (cands : Finset (Finset String))
    (p : String) (g : Nat) : ℚ :=
  ∑ have_trait ∈ cands,
    if failsEvidence ped have_trait then 0
    else candidateGeneMass ped have_trait p g

/-- Trait masses summed over a given collection of trait candidates. -/
def traitMassOver (ped : Pedigree) (cands : Finset (Finset String))
    (p : String) (b : Bool) : ℚ :=
  ∑ have_trait ∈ cands,
    if failsEvidence ped have_trait then 0
    else candidateTraitMass ped have_trait p b

/-- `probabilities[p]["gene"][g]` as accumulated by `main` just before
`normalize`: the outer loop runs over `powerset(names)`. -/
def geneMass (ped : Pedigree) (p : String) (g : Nat) : ℚ :=
  geneMassOver ped (nameSet ped).powerset p g

/-- `probabilities[p]["trait"][b]` as accumulated by `main` just before
`normalize`. -/
def traitMass (ped : Pedigree) (p : String) (b : Bool) : ℚ :=
  traitMassOver ped (nameSet ped).powerset p b

/-- `gene_total` in `normalize`: the sum of the three gene entries. -/
def geneTotal (ped : Pedigree) (p : String) : ℚ :=
  geneMass ped p 2 + geneMass ped p 1 + geneMass ped p 0

/-- `trait_total` in `normalize`: the sum of the two trait entries. -/
def traitTotal (ped : Pedigree) (p : String) : ℚ :=
  traitMass ped p true + traitMass ped p false

/-- The normalized gene posterior: each entry divided by its mapping's total. -/
def normGene (ped : Pedigree) (p : String) (g : Nat) : ℚ :=
  geneMass ped p g / geneTotal ped p

/-- The normalized trait posterior: each entry divided by its mapping's total. -/
def normTrait (ped : Pedigree) (p : String) (b : Bool) : ℚ :=
  traitMass ped p b / traitTotal ped p

/-- The total probability mass of all evidence-consistent candidates: the sum,
over surviving trait candidates and all gene assignments, of the joint
probability. -/
def totalMass (ped : Pedigree) : ℚ :=
  ∑ have_trait ∈ (nameSet ped).powerset,
    if failsEvidence ped have_trait then 0
    else
      ∑ one_gene ∈ (nameSet ped).powerset,
        ∑ two_genes ∈ (nameSet ped \ one_gene).powerset,
          jointProbability ped one_gene two_genes have_trait

/-- The transmit probability as the spec states it (§4.1), for comparison
with the code's `passing_prob` table: 0.01 for a 0-copy parent, exactly 0.5
for a 1-copy parent, 0.99 for a 2-copy parent. -/
def transmitSpec (g : Fin 3) : ℚ :=
  if g.val = 0 then 1/100 else if g.val = 1 then 1/2 else 99/100

/-- The one trait candidate that always survives the evidence check: the set
of people whose trait is observed true. -/
def htStar (ped : Pedigree) : Finset String :=
  (nameSet ped).filter fun q => (ped.person q).trait = some true

/-- A one-person pedigree: a single founder with no observed trait. -/
def singleFounder (n : String) : Pedigree :=
  ⟨[n], fun _ => ⟨none, none, none⟩, by simp⟩

/-- A concrete one-person pedigree whose person has an observed trait. -/
def pedA : Pedigree :=
  ⟨["a"], fun _ => ⟨none, none, some true⟩, by simp⟩

/-- A concrete malformed pedigree: the only person records a mother "m0" and a
father "f0", neither of which exists in the person set. -/
def ghostPed : Pedigree :=
  ⟨["c"], fun _ => ⟨some "m0", some "f0", none⟩, by simp⟩

theorem powerset_single (n : String) :
    ({n} : Finset String).powerset = {∅, {n}} := by
  rw [show ({n} : Finset String) = insert n ∅ from rfl, Finset.powerset_insert]
  rw [Finset.powerset_empty]
  ext t
  simp

theorem sum_powerset_single (n : String) (f : Finset String → ℚ) :
    ∑ t ∈ ({n} : Finset String).powerset, f t = f ∅ + f {n} := by
  rw [powerset_single, Finset.sum_pair (Ne.symm (Finset.singleton_ne_empty n))]

theorem passing_prob_pos (g : Nat) : 0 < passing_prob g := by
  unfold passing_prob mutation
  split_ifs <;> norm_num

theorem passing_prob_lt_one (g : Nat) : passing_prob g < 1 := by
  unfold passing_prob mutation
  split_ifs <;> norm_num

theorem PROBS_gene_pos (g : Nat) : 0 < PROBS_gene g := by
  unfold PROBS_gene
  split_ifs <;> norm_num

theorem PROBS_trait_pos (g : Nat) (t : Bool) : 0 < PROBS_trait g t := by
  unfold PROBS_trait
  split_ifs <;> norm_num

theorem childGeneProb_pos (genes mg fg : Nat) : 0 < childGeneProb genes mg fg := by
  have hm := passing_prob_pos mg
  have hf := passing_prob_pos fg
  have hm1 := passing_prob_lt_one mg
  have hf1 := passing_prob_lt_one fg
  unfold childGeneProb
  split_ifs
  · exact mul_pos hm hf
  · exact add_pos (mul_pos hm (by linarith)) (mul_pos (by linarith) hf)
  · exact mul_pos (by linarith) (by linarith)

theorem personFactor_pos (ped : Pedigree) (one_gene two_genes have_trait : Finset String)
    (p : String) : 0 < personFactor ped one_gene two_genes have_trait p := by
  unfold personFactor
  refine mul_pos ?_ (PROBS_trait_pos _ _)
  cases (ped.person p).mother with
  | none => exact PROBS_gene_pos _
  | some mother => exact childGeneProb_pos _ _ _

theorem jointProbability_eq_prod (ped : Pedigree)
    (one_gene two_genes have_trait : Finset String) :
    jointProbability ped one_gene two_genes have_trait =
      (ped.names.map (personFactor ped one_gene two_genes have_trait)).prod := by
  rw [jointProbability, List.prod_eq_foldl, List.foldl_map]

theorem jointProbability_pos (ped : Pedigree)
    (one_gene two_genes have_trait : Finset String) :
    0 < jointProbability ped one_gene two_genes have_trait := by
  rw [jointProbability_eq_prod]
  apply List.prod_pos
  intro a ha
  rcases List.mem_map.1 ha with ⟨q, _, rfl⟩
  exact personFactor_pos ped one_gene two_genes have_trait q

theorem geneCount_cases (one_gene two_genes : Finset String) (p : String) :
    geneCount one_gene two_genes p = 2 ∨ geneCount one_gene two_genes p = 1 ∨
      geneCount one_gene two_genes p = 0 := by
  unfold geneCount
  split_ifs <;> simp

theorem gene_indicator_collapse (one_gene two_genes : Finset String) (p : String) (q : ℚ) :
    ((if geneCount one_gene two_genes p = 2 then q else 0) +
      (if geneCount one_gene two_genes p = 1 then q else 0)) +
      (if geneCount one_gene two_genes p = 0 then q else 0) = q := by
  rcases geneCount_cases one_gene two_genes p with h | h | h <;>
    rw [h] <;> norm_num

theorem geneTotal_eq_totalMass (ped : Pedigree) (p : String) :
    geneTotal ped p = totalMass ped := by
  unfold geneTotal geneMass geneMassOver candidateGeneMass totalMass
  rw [← Finset.sum_add_distrib, ← Finset.sum_add_distrib]
  refine Finset.sum_congr rfl fun ht _ => ?_
  by_cases hf : failsEvidence ped ht
  · simp [hf]
  · simp only [if_neg hf]
    rw [← Finset.sum_add_distrib, ← Finset.sum_add_distrib]
    refine Finset.sum_congr rfl fun og _ => ?_
    rw [← Finset.sum_add_distrib, ← Finset.sum_add_distrib]
    exact Finset.sum_congr rfl fun tg _ => gene_indicator_collapse og tg p _

theorem traitTotal_eq_totalMass (ped : Pedigree) (p : String) :
    traitTotal ped p = totalMass ped := by
  unfold traitTotal traitMass traitMassOver candidateTraitMass totalMass
  rw [← Finset.sum_add_distrib]
  refine Finset.sum_congr rfl fun ht _ => ?_
  by_cases hf : failsEvidence ped ht
  · simp [hf]
  · simp only [if_neg hf]
    rw [← Finset.sum_add_distrib]
    refine Finset.sum_congr rfl fun og _ => ?_
    rw [← Finset.sum_add_distrib]
    refine Finset.sum_congr rfl fun tg _ => ?_
    cases h : decide (p ∈ ht) <;> norm_num

theorem failsEvidence_htStar (ped : Pedigree) :
    failsEvidence ped (htStar ped) = false := by
  unfold failsEvidence
  rw [List.any_eq_false]
  intro p hp
  cases h : (ped.person p).trait with
  | none => simp
  | some b =>
    simp only [bne_eq_false_iff_eq]
    cases b with
    | true =>
      have : p ∈ htStar ped := by
        unfold htStar
        exact Finset.mem_filter.2 ⟨List.mem_toFinset.2 hp, h⟩
      simp [this]
    | false =>
      have : p ∉ htStar ped := by
        unfold htStar
        intro hmem
        have := (Finset.mem_filter.1 hmem).2
        rw [h] at this
        exact Bool.false_ne_true (Option.some.inj this)
      simp [this]

theorem candidate_sum_pos (ped : Pedigree) (have_trait : Finset String) :
    0 < ∑ one_gene ∈ (nameSet ped).powerset,
        ∑ two_genes ∈ (nameSet ped \ one_gene).powerset,
          jointProbability ped one_gene two_genes have_trait := by
  refine Finset.sum_pos (fun og _ => ?_) ⟨∅, Finset.empty_mem_powerset _⟩
  exact Finset.sum_pos (fun tg _ => jointProbability_pos ped og tg have_trait)
    ⟨∅, Finset.empty_mem_powerset _⟩

theorem totalMass_pos (ped : Pedigree) : 0 < totalMass ped := by
  unfold totalMass
  refine Finset.sum_pos' (fun ht _ => ?_) ⟨htStar ped, ?_, ?_⟩
  · by_cases hf : failsEvidence ped ht
    · simp [hf]
    · simp only [if_neg hf]
      exact le_of_lt (candidate_sum_pos ped ht)
  · exact Finset.mem_powerset.2 (Finset.filter_subset _ _)
  · rw [failsEvidence_htStar]
    simpa using candidate_sum_pos ped (htStar ped)

theorem consistent_fixes_membership (ped : Pedigree) (have_trait : Finset String)
    (p : String) (b : Bool) (hp : p ∈ ped.names)
    (hb : (ped.person p).trait = some b)
    (hf : failsEvidence ped have_trait = false) :
    decide (p ∈ have_trait) = b := by
  unfold failsEvidence at hf
  rw [List.any_eq_false] at hf
  have := hf p hp
  rw [hb] at this
  simp only [Bool.not_eq_true, bne_eq_false_iff_eq] at this
  exact this.symm

theorem traitMass_other_eq_zero (ped : Pedigree) (p : String) (b : Bool)
    (hp : p ∈ ped.names) (hb : (ped.person p).trait = some b) :
    traitMass ped p (!b) = 0 := by
  unfold traitMass traitMassOver
  refine Finset.sum_eq_zero fun ht _ => ?_
  by_cases hf : failsEvidence ped ht
  · simp [hf]
  · simp only [if_neg hf]
    unfold candidateTraitMass
    refine Finset.sum_eq_zero fun og _ => Finset.sum_eq_zero fun tg _ => ?_
    rw [if_neg]
    rw [consistent_fixes_membership ped ht p b hp hb (Bool.not_eq_true _ ▸ hf)]
    simp

/-- C1: for every pedigree, gene-count assignment (the disjoint sets
`one_gene` and `two_genes`, everyone else counting 0) and trait subset,
`joint_probability` returns the product over every person, visited exactly
once, of (a) the founder gene prior at the person's assigned count when the
person has no parents, else the inheritance probability of that count from
the mother's and father's assigned counts in this same assignment, and
(b) the trait-table probability of the person's trait value given the
assigned count; the result is non-negative. -/
theorem joint_probability_is_product (ped : Pedigree)
    (one_gene two_genes have_trait : Finset String) :
    jointProbability ped one_gene two_genes have_trait =
      (ped.names.map fun p =>
        (match (ped.person p).mother with
         | none => PROBS_gene (geneCount one_gene two_genes p)
         | some mother =>
            childGeneProb (geneCount one_gene two_genes p)
              (geneCount one_gene two_genes mother)
              (parentGeneCount one_gene two_genes (ped.person p).father))
        * PROBS_trait (geneCount one_gene two_genes p)
            (decide (p ∈ have_trait))).prod
    ∧ 0 ≤ jointProbability ped one_gene two_genes have_trait :=
  ⟨jointProbability_eq_prod ped one_gene two_genes have_trait,
   le_of_lt (jointProbability_pos ped one_gene two_genes have_trait)⟩

/-- C2: for every pair of parent gene counts in {0, 1, 2}, the code's
transmit-probability table agrees with the spec's (0.01 for a 0-copy parent,
exactly 0.5 for a 1-copy parent, 0.99 for a 2-copy parent), and the child's
gene-count distribution is t_mother * t_father for two copies,
(1 - t_mother) * (1 - t_father) for zero copies, and the explicit two-path
sum t_mother * (1 - t_father) + (1 - t_mother) * t_father for one copy. -/
theorem child_distribution_from_transmit_probs (mg fg : Fin 3) :
    passing_prob mg.val = transmitSpec mg ∧
    childGeneProb 2 mg.val fg.val = transmitSpec mg * transmitSpec fg ∧
    childGeneProb 0 mg.val fg.val = (1 - transmitSpec mg) * (1 - transmitSpec fg) ∧
    childGeneProb 1 mg.val fg.val =
      transmitSpec mg * (1 - transmitSpec fg) + (1 - transmitSpec mg) * transmitSpec fg := by
  fin_cases mg <;> fin_cases fg <;>
    norm_num [childGeneProb, passing_prob, transmitSpec, mutation]

/-- C3: for every person set, the nested enumeration (choose `one_gene`, then
choose `two_genes` among the remaining people) keeps the chosen sets disjoint,
generates every total gene-count assignment exactly once, and produces exactly
3 ^ n pairs. -/
theorem enumeration_generates_all_assignments (S : Finset String) :
    (∀ one_gene two_genes : Finset String,
        one_gene ⊆ S → two_genes ⊆ S \ one_gene → Disjoint one_gene two_genes) ∧
    (∀ f : String → Fin 3, ∃! pr : Finset String × Finset String,
        pr.1 ⊆ S ∧ pr.2 ⊆ S \ pr.1 ∧
          ∀ x ∈ S, geneCount pr.1 pr.2 x = (f x).val) ∧
    ∑ one_gene ∈ S.powerset, (S \ one_gene).powerset.card = 3 ^ S.card := by
  refine ⟨fun og tg hog htg => Finset.disjoint_sdiff.mono_right htg, fun f => ?_, ?_⟩
  · refine ⟨⟨S.filter fun x => (f x).val = 1, S.filter fun x => (f x).val = 2⟩,
      ⟨Finset.filter_subset _ _, ?_, ?_⟩, ?_⟩
    · intro x hx
      rcases Finset.mem_filter.1 hx with ⟨hxS, hv⟩
      refine Finset.mem_sdiff.2 ⟨hxS, fun hc => ?_⟩
      have := (Finset.mem_filter.1 hc).2
      omega
    · intro x hxS
      show geneCount (S.filter fun y => (f y).val = 1) (S.filter fun y => (f y).val = 2) x
          = (f x).val
      unfold geneCount
      by_cases h2 : (f x).val = 2
      · rw [if_pos (Finset.mem_filter.2 ⟨hxS, h2⟩)]
        omega
      · have hnt : x ∉ S.filter fun y => (f y).val = 2 :=
          fun hc => h2 (Finset.mem_filter.1 hc).2
        rw [if_neg hnt]
        by_cases h1 : (f x).val = 1
        · rw [if_pos (Finset.mem_filter.2 ⟨hxS, h1⟩)]
          omega
        · have hno : x ∉ S.filter fun y => (f y).val = 1 :=
            fun hc => h1 (Finset.mem_filter.1 hc).2
          rw [if_neg hno]
          have := (f x).isLt
          omega
    · rintro ⟨og, tg⟩ ⟨hog, htg, hgc⟩
      have hd : ∀ x ∈ tg, x ∉ og := fun x hx => (Finset.mem_sdiff.1 (htg hx)).2
      have h1 : og = S.filter fun x => (f x).val = 1 := by
        ext x
        constructor
        · intro hx
          have hxS := hog hx
          have hnt : x ∉ tg := fun hc => hd x hc hx
          have hv := hgc x hxS
          unfold geneCount at hv
          rw [if_neg hnt, if_pos hx] at hv
          exact Finset.mem_filter.2 ⟨hxS, hv.symm⟩
        · intro hx
          rcases Finset.mem_filter.1 hx with ⟨hxS, hv1⟩
          have hv := hgc x hxS
          unfold geneCount at hv
          by_cases hxtg : x ∈ tg
          · rw [if_pos hxtg] at hv
            omega
          · rw [if_neg hxtg] at hv
            by_contra hxog
            rw [if_neg hxog] at hv
            omega
      have h2 : tg = S.filter fun x => (f x).val = 2 := by
        ext x
        constructor
        · intro hx
          have hxS := (Finset.mem_sdiff.1 (htg hx)).1
          have hv := hgc x hxS
          unfold geneCount at hv
          rw [if_pos hx] at hv
          exact Finset.mem_filter.2 ⟨hxS, hv.symm⟩
        · intro hx
          rcases Finset.mem_filter.1 hx with ⟨hxS, hv2⟩
          have hv := hgc x hxS
          unfold geneCount at hv
          by_contra hxtg
          rw [if_neg hxtg] at hv
          by_cases hxog : x ∈ og
          · rw [if_pos hxog] at hv
            omega
          · rw [if_neg hxog] at hv
            omega
      exact Prod.ext h1 h2
  · calc ∑ one_gene ∈ S.powerset, (S \ one_gene).powerset.card
        = ∑ one_gene ∈ S.powerset, 1 ^ one_gene.card * 2 ^ (S.card - one_gene.card) := by
          refine Finset.sum_congr rfl fun og hog => ?_
          rw [Finset.card_powerset, Finset.card_sdiff (Finset.mem_powerset.1 hog)]
          ring
      _ = (1 + 2) ^ S.card := Finset.sum_pow_mul_eq_add_pow 1 2 S
      _ = 3 ^ S.card := by norm_num

/-- C4: a trait candidate contradicted by some person's observed trait fails
the evidence check and is discarded before the gene-count enumeration: erasing
it from the candidate collection leaves every accumulated gene and trait mass
unchanged, so it contributes no mass to any person's posteriors. -/
theorem inconsistent_candidate_contributes_nothing (ped : Pedigree)
    (ht0 : Finset String) (p : String) (g : Nat) (b : Bool)
    (hfail : ∃ q ∈ ped.names, ∃ tb, (ped.person q).trait = some tb ∧
      tb ≠ decide (q ∈ ht0)) :
    failsEvidence ped ht0 = true ∧
    geneMass ped p g = geneMassOver ped ((nameSet ped).powerset.erase ht0) p g ∧
    traitMass ped p b = traitMassOver ped ((nameSet ped).powerset.erase ht0) p b := by
  have hf : failsEvidence ped ht0 = true := by
    unfold failsEvidence
    rw [List.any_eq_true]
    rcases hfail with ⟨q, hq, tb, htb, hne⟩
    exact ⟨q, hq, by rw [htb]; exact bne_iff_ne.2 hne⟩
  refine ⟨hf, ?_, ?_⟩
  · unfold geneMass geneMassOver
    exact (Finset.sum_erase _ (by simp [hf])).symm
  · unfold traitMass traitMassOver
    exact (Finset.sum_erase _ (by simp [hf])).symm

/-- C5: when at least one trait candidate survives the evidence check, each
normalized per-person mapping is each accumulated entry divided by the sum of
its own mapping, and each mapping sums to 1 within 1e-9. -/
theorem normalized_distributions_sum_to_one (ped : Pedigree) (p : String)
    (hp : p ∈ ped.names)
    (hc : ∃ ht ∈ (nameSet ped).powerset, failsEvidence ped ht = false) :
    (∀ g, normGene ped p g = geneMass ped p g /
        (geneMass ped p 2 + geneMass ped p 1 + geneMass ped p 0)) ∧
    |normGene ped p 0 + normGene ped p 1 + normGene ped p 2 - 1| ≤ 1 / 1000000000 ∧
    (∀ b, normTrait ped p b = traitMass ped p b /
        (traitMass ped p true + traitMass ped p false)) ∧
    |normTrait ped p true + normTrait ped p false - 1| ≤ 1 / 1000000000 := by
  have hT : geneTotal ped p = totalMass ped := geneTotal_eq_totalMass ped p
  have htT : traitTotal ped p = totalMass ped := traitTotal_eq_totalMass ped p
  have hpos := totalMass_pos ped
  refine ⟨fun g => rfl, ?_, fun b => rfl, ?_⟩
  · have h1 : normGene ped p 0 + normGene ped p 1 + normGene ped p 2 = 1 := by
      unfold normGene
      rw [div_add_div_same, div_add_div_same]
      rw [show geneMass ped p 0 + geneMass ped p 1 + geneMass ped p 2
          = geneTotal ped p by unfold geneTotal; ring]
      exact div_self (by rw [hT]; exact ne_of_gt hpos)
    rw [h1]
    norm_num
  · have h1 : normTrait ped p true + normTrait ped p false = 1 := by
      unfold normTrait
      rw [div_add_div_same]
      rw [show traitMass ped p true + traitMass ped p false
          = traitTotal ped p from rfl]
      exact div_self (by rw [htT]; exact ne_of_gt hpos)
    rw [h1]
    norm_num

/-- C6: every person with an observed trait value ends with a normalized trait
posterior of exactly 1 at the observed value and exactly 0 at the other
value. -/
theorem observed_trait_posterior_is_certain (ped : Pedigree) (p : String) (b : Bool)
    (hp : p ∈ ped.names) (hb : (ped.person p).trait = some b) :
    normTrait ped p b = 1 ∧ normTrait ped p (!b) = 0 := by
  have h0 : traitMass ped p (!b) = 0 := traitMass_other_eq_zero ped p b hp hb
  have hT : traitTotal ped p = totalMass ped := traitTotal_eq_totalMass ped p
  have hpos := totalMass_pos ped
  have hMb : traitMass ped p b = totalMass ped := by
    have hT2 := hT
    unfold traitTotal at hT2
    cases b
    · simp only [Bool.not_false] at h0
      rw [h0] at hT2
      linarith
    · simp only [Bool.not_true] at h0
      rw [h0] at hT2
      linarith
  constructor
  · unfold normTrait
    rw [hMb, hT]
    exact div_self (ne_of_gt hpos)
  · unfold normTrait
    rw [h0]
    exact zero_div _

/-- C9: division by zero in `normalize` (a zero accumulated total for some
person) happens exactly when no trait candidate survives the evidence check;
since the always-consistent candidate consisting of the observed-true people
survives, neither ever happens, so under the surviving-candidate precondition
`normalize` never fails. -/
theorem normalize_failure_characterization (ped : Pedigree) :
    ((∃ p ∈ ped.names, geneTotal ped p = 0 ∨ traitTotal ped p = 0) ↔
      ¬ ∃ ht ∈ (nameSet ped).powerset, failsEvidence ped ht = false) ∧
    ((∃ ht ∈ (nameSet ped).powerset, failsEvidence ped ht = false) →
      ∀ p ∈ ped.names, geneTotal ped p ≠ 0 ∧ traitTotal ped p ≠ 0) := by
  have hpos := totalMass_pos ped
  have hsurv : ∃ ht ∈ (nameSet ped).powerset, failsEvidence ped ht = false :=
    ⟨htStar ped, Finset.mem_powerset.2 (Finset.filter_subset _ _),
      failsEvidence_htStar ped⟩
  have hnz : ∀ p, geneTotal ped p ≠ 0 ∧ traitTotal ped p ≠ 0 := fun p =>
    ⟨by rw [geneTotal_eq_totalMass]; exact ne_of_gt hpos,
     by rw [traitTotal_eq_totalMass]; exact ne_of_gt hpos⟩
  refine ⟨⟨?_, ?_⟩, fun _ p _ => hnz p⟩
  · rintro ⟨p, _, h | h⟩
    · exact absurd h (hnz p).1
    · exact absurd h (hnz p).2
  · intro hno
    exact absurd hsurv hno

/-- C10: before normalization, each person's three gene masses and two trait
masses have the same total, and that total is the same for every person: the
sum of the joint probabilities of all evidence-consistent candidates. -/
theorem accumulated_masses_agree (ped : Pedigree) (p : String)
    (hp : p ∈ ped.names) :
    geneTotal ped p = traitTotal ped p ∧ traitTotal ped p = totalMass ped :=
  ⟨by rw [geneTotal_eq_totalMass, traitTotal_eq_totalMass],
   traitTotal_eq_totalMass ped p⟩

/-- C7: for a pedigree consisting of a single founder with no observed trait,
the normalized gene-count posterior equals the founder prior exactly:
0.96, 0.03 and 0.01 for 0, 1 and 2 copies. -/
theorem single_founder_posterior_is_prior (n : String) :
    normGene (singleFounder n) n 0 = 96/100 ∧
    normGene (singleFounder n) n 1 = 3/100 ∧
    normGene (singleFounder n) n 2 = 1/100 := by
  have h : nameSet (singleFounder n) = {n} := rfl
  refine ⟨?_, ?_, ?_⟩ <;>
  · simp only [normGene, geneMass, geneTotal, geneMassOver, candidateGeneMass, h,
      sum_powerset_single, Finset.sdiff_empty, Finset.sdiff_self,
      Finset.powerset_empty, Finset.sum_singleton]
    simp [failsEvidence, singleFounder, jointProbability, personFactor, geneCount,
      parentGeneCount, childGeneProb, passing_prob, mutation, PROBS_trait, PROBS_gene]
    norm_num

/-- C8 counterexample: `ghostPed` records parents "m0" and "f0" that do not
exist in the person set, yet the engine does not reject it: the joint
probability evaluates to a well-defined positive number and the whole
pipeline produces a normalized posterior, with the missing parents silently
read as 0-copy parents (child gets 2 copies with probability
mutation² = 1/10000), contradicting the claimed pre-inference rejection. -/
theorem missing_parent_not_rejected :
    (ghostPed.person "c").mother = some "m0" ∧ "m0" ∉ nameSet ghostPed ∧
    (ghostPed.person "c").father = some "f0" ∧ "f0" ∉ nameSet ghostPed ∧
    jointProbability ghostPed ∅ ∅ ∅ = 970299 / 1000000 ∧
    normGene ghostPed "c" 2 = 1 / 10000 := by
  refine ⟨rfl, by decide, rfl, by decide, ?_, ?_⟩
  · simp [jointProbability, ghostPed, personFactor, geneCount, parentGeneCount,
      childGeneProb, passing_prob, mutation, PROBS_trait, PROBS_gene]
    norm_num
  · have h : nameSet ghostPed = {"c"} := rfl
    simp only [normGene, geneMass, geneTotal, geneMassOver, candidateGeneMass, h,
      sum_powerset_single, Finset.sdiff_empty, Finset.sdiff_self,
      Finset.powerset_empty, Finset.sum_singleton]
    simp [failsEvidence, ghostPed, jointProbability, personFactor, geneCount,
      parentGeneCount, childGeneProb, passing_prob, mutation, PROBS_trait, PROBS_gene]
    norm_num

/-- C8 amended: the engine performs no pedigree validation and does not reject
a missing parent reference; inference proceeds, and since the enumerated gene
sets only contain existing people, a recorded mother absent from the person
set is silently read as a 0-copy parent (not as a founder drawing the
prior). -/
theorem missing_parent_treated_as_zero_copies (ped : Pedigree)
    (one_gene two_genes have_trait : Finset String) (p m : String)
    (hog : one_gene ⊆ nameSet ped) (htg : two_genes ⊆ nameSet ped)
    (hm : m ∉ nameSet ped) (hmo : (ped.person p).mother = some m) :
    geneCount one_gene two_genes m = 0 ∧
    personFactor ped one_gene two_genes have_trait p =
      childGeneProb (geneCount one_gene two_genes p) 0
        (parentGeneCount one_gene two_genes (ped.person p).father) *
      PROBS_trait (geneCount one_gene two_genes p) (decide (p ∈ have_trait)) := by
  have h0 : geneCount one_gene two_genes m = 0 := by
    unfold geneCount
    rw [if_neg (fun hc => hm (htg hc)), if_neg (fun hc => hm (hog hc))]
  refine ⟨h0, ?_⟩
  unfold personFactor
  rw [hmo]
  show childGeneProb _ (geneCount one_gene two_genes m) _ * _ = _
  rw [h0]

theorem missing_parent_treated_as_zero_copies_witness :
    ((∅ : Finset String) ⊆ nameSet ghostPed ∧ (∅ : Finset String) ⊆ nameSet ghostPed ∧
      "m0" ∉ nameSet ghostPed ∧ (ghostPed.person "c").mother = some "m0") ∧
    (geneCount ∅ ∅ "m0" = 0 ∧
      personFactor ghostPed ∅ ∅ ∅ "c" =
        childGeneProb (geneCount ∅ ∅ "c") 0
          (parentGeneCount ∅ ∅ (ghostPed.person "c").father) *
        PROBS_trait (geneCount ∅ ∅ "c") (decide ("c" ∈ (∅ : Finset String)))) :=
  ⟨⟨by decide, by decide, by decide, rfl⟩,
   missing_parent_treated_as_zero_copies ghostPed ∅ ∅ ∅ "c" "m0"
     (by decide) (by decide) (by decide) rfl⟩

theorem enumeration_generates_all_assignments_witness :
    (∀ one_gene two_genes : Finset String,
        one_gene ⊆ ({"a"} : Finset String) → two_genes ⊆ ({"a"} : Finset String) \ one_gene →
          Disjoint one_gene two_genes) ∧
    (∀ f : String → Fin 3, ∃! pr : Finset String × Finset String,
        pr.1 ⊆ ({"a"} : Finset String) ∧ pr.2 ⊆ ({"a"} : Finset String) \ pr.1 ∧
          ∀ x ∈ ({"a"} : Finset String), geneCount pr.1 pr.2 x = (f x).val) ∧
    ∑ one_gene ∈ ({"a"} : Finset String).powerset,
        (({"a"} : Finset String) \ one_gene).powerset.card =
      3 ^ ({"a"} : Finset String).card :=
  enumeration_generates_all_assignments {"a"}

theorem inconsistent_candidate_contributes_nothing_witness :
    (∃ q ∈ pedA.names, ∃ tb, (pedA.person q).trait = some tb ∧
      tb ≠ decide (q ∈ (∅ : Finset String))) ∧
    (failsEvidence pedA ∅ = true ∧
      geneMass pedA "a" 0 = geneMassOver pedA ((nameSet pedA).powerset.erase ∅) "a" 0 ∧
      traitMass pedA "a" false =
        traitMassOver pedA ((nameSet pedA).powerset.erase ∅) "a" false) :=
  ⟨⟨"a", by decide, true, rfl, by decide⟩,
   inconsistent_candidate_contributes_nothing pedA ∅ "a" 0 false
     ⟨"a", by decide, true, rfl, by decide⟩⟩

theorem normalized_distributions_sum_to_one_witness :
    ("a" ∈ pedA.names ∧
      ∃ ht ∈ (nameSet pedA).powerset, failsEvidence pedA ht = false) ∧
    ((∀ g, normGene pedA "a" g = geneMass pedA "a" g /
        (geneMass pedA "a" 2 + geneMass pedA "a" 1 + geneMass pedA "a" 0)) ∧
    |normGene pedA "a" 0 + normGene pedA "a" 1 + normGene pedA "a" 2 - 1| ≤ 1 / 1000000000 ∧
    (∀ b, normTrait pedA "a" b = traitMass pedA "a" b /
        (traitMass pedA "a" true + traitMass pedA "a" false)) ∧
    |normTrait pedA "a" true + normTrait pedA "a" false - 1| ≤ 1 / 1000000000) :=
  ⟨⟨by decide, {"a"}, by decide, by decide⟩,
   normalized_distributions_sum_to_one pedA "a" (by decide)
     ⟨{"a"}, by decide, by decide⟩⟩

theorem observed_trait_posterior_is_certain_witness :
    ("a" ∈ pedA.names ∧ (pedA.person "a").trait = some true) ∧
    (normTrait pedA "a" true = 1 ∧ normTrait pedA "a" (!true) = 0) :=
  ⟨⟨by decide, rfl⟩,
   observed_trait_posterior_is_certain pedA "a" true (by decide) rfl⟩

theorem normalize_failure_characterization_witness :
    geneTotal pedA "a" ≠ 0 ∧ traitTotal pedA "a" ≠ 0 :=
  (normalize_failure_characterization pedA).2
    ⟨{"a"}, by decide, by decide⟩ "a" (by decide)

theorem accumulated_masses_agree_witness :
    ("a" ∈ pedA.names) ∧
    (geneTotal pedA "a" = traitTotal pedA "a" ∧ traitTotal pedA "a" = totalMass pedA) :=
  ⟨by decide, accumulated_masses_agree pedA "a" (by decide)⟩

end Heredity
